import Mathlib

/-!
Shallow embedding of the WireGuard netlink protocol codec from
`src/internal/wgnl/client_linux.go` (package `wgnl`).

Modelling conventions:
- Go byte slices are `List Nat` (each entry one byte value).
- Go `[32]byte` keys are `List Nat` of length 32; equality is structural, as in Go.
- Machine integers are `Nat`/`Int`; the host is taken to be little-endian
  (linux/amd64, the reference platform for this file's build tag), so the
  `unsafe.Pointer` struct reinterpretations in `parseSockaddr`/`parseTimespec`
  read multi-byte fields in little-endian order.
- Fallible Go functions return `Except DecodeError` / `Except GoErr`.
- The external netlink attribute walker (`netlink.NewAttributeDecoder`,
  `netlink.UnmarshalAttributes`) is embedded per its documented wire format:
  each record is a 2-byte little-endian total length (header included),
  a 2-byte type code, the value bytes, and padding to 4-byte alignment.
-/

deriving instance DecidableEq for Except

namespace Wgctrl

/-- A cryptographic key: Go `wgtypes.Key` is `[32]byte`; modelled as the list of
its byte values.  Only 32-long lists arise from decoding. -/
abbrev Key := List Nat

/-- The Go zero value of `wgtypes.Key` ( thirty-two zero bytes). -/
def zeroKey : Key := List.replicate 32 0

/-- Go `net.IPNet`: an IP (raw address bytes) plus a mask.  `net.CIDRMask ones bits`
is `nil` when `ones > bits`; a mask is therefore `Option (ones, bits)`, `none`
standing for a nil mask. -/
structure IPNet where
  ip : List Nat
  mask : Option (Nat × Nat)
deriving DecidableEq, Repr

/-- Go `net.UDPAddr` as used here: raw IP bytes plus a port. -/
structure UDPAddr where
  ip : List Nat
  port : Nat
deriving DecidableEq, Repr

/-- Go `wgtypes.Peer` with the fields populated by `parsePeers`. -/
structure Peer where
  publicKey : Key
  presharedKey : Key
  endpoint : Option UDPAddr
  persistentKeepaliveInterval : Nat
  lastHandshakeTime : Int × Int
  receiveBytes : Int
  transmitBytes : Int
  allowedIPs : List IPNet
deriving DecidableEq, Repr

/-- The Go zero value of `wgtypes.Peer`. -/
def zeroPeer : Peer :=
  { publicKey := zeroKey
    presharedKey := zeroKey
    endpoint := none
    persistentKeepaliveInterval := 0
    lastHandshakeTime := (0, 0)
    receiveBytes := 0
    transmitBytes := 0
    allowedIPs := [] }

/-- Go `wgtypes.Device` with the fields populated by `parseDeviceLoop`.
The name is kept as its byte list. -/
structure Device where
  name : List Nat
  privateKey : Key
  publicKey : Key
  listenPort : Nat
  firewallMark : Nat
  peers : List Peer
deriving DecidableEq, Repr

/-- The Go zero value of `wgtypes.Device` (`var first wgtypes.Device`). -/
def zeroDevice : Device :=
  { name := []
    privateKey := zeroKey
    publicKey := zeroKey
    listenPort := 0
    firewallMark := 0
    peers := [] }

/-- Decode errors, following the spec taxonomy (§7): truncation, malformed
record structure, and wrong-size primitive payloads. -/
inductive DecodeError where
  | truncated
  | malformed
  | invalidLength (got : Nat)
deriving DecidableEq, Repr

/-- One netlink attribute as yielded by the walker: a type code and value bytes. -/
structure NLAttr where
  typ : Nat
  data : List Nat
deriving DecidableEq, Repr

/-- A generic netlink message body (`genetlink.Message.Data`); the header is not
consulted by the decoder. -/
abbrev Message := List Nat

/-! Attribute type codes.  Modelled from the spec: the numeric constants live in
`internal/wgnl/internal/wgh` (generated kernel UAPI constants), which is not
under src/; the spec (§6) lists the well-known codes by name.  Values follow
the kernel UAPI ordering; no claim depends on the exact numbers, only on their
distinctness. -/

def DeviceAIfindex : Nat := 1
def DeviceAIfname : Nat := 2
def DeviceAPrivateKey : Nat := 3
def DeviceAPublicKey : Nat := 4
def DeviceAListenPort : Nat := 6
def DeviceAFwmark : Nat := 7
def DeviceAPeers : Nat := 8

def PeerAPublicKey : Nat := 1
def PeerAPresharedKey : Nat := 2
def PeerAEndpoint : Nat := 4
def PeerAPersistentKeepaliveInterval : Nat := 5
def PeerALastHandshakeTime : Nat := 6
def PeerARxBytes : Nat := 7
def PeerATxBytes : Nat := 8
def PeerAAllowedips : Nat := 9

def AllowedipAFamily : Nat := 1
def AllowedipAIpaddr : Nat := 2
def AllowedipACidrMask : Nat := 3

/-- `unix.AF_INET`. -/
def AF_INET : Nat := 2
/-- `unix.AF_INET6`. -/
def AF_INET6 : Nat := 10
/-- `unix.SizeofSockaddrInet4` (2 + 2 + 4 + 8 bytes). -/
def SizeofSockaddrInet4 : Nat := 16
/-- `unix.SizeofSockaddrInet6` (2 + 2 + 4 + 16 + 4 bytes). -/
def SizeofSockaddrInet6 : Nat := 28

/-- Little-endian value of a byte list (first byte least significant). -/
def leNat : List Nat → Nat
  | [] => 0
  | b :: rest => b + 256 * leNat rest

/-- Netlink attribute alignment: round up to a multiple of 4. -/
def align4 (n : Nat) : Nat := (n + 3) / 4 * 4

/-- Reading an unsigned 64-bit value into a Go `int` (64-bit, two's complement). -/
def toInt64 (n : Nat) : Int :=
  if n < 9223372036854775808 then (n : Int) else (n : Int) - 18446744073709551616

/-- Worker for `unmarshalAttrs`, structurally recursive on a fuel argument
(each step consumes at least four bytes, so `b.length` fuel always suffices). -/
def unmarshalGo : Nat → List Nat → Except DecodeError (List NLAttr)
  | _, [] => .ok []
  | 0, _ :: _ => .error .truncated
  | fuel + 1, b =>
    if b.length < 4 then .error .malformed
    else
      let len := leNat (b.take 2)
      let typ := leNat ((b.drop 2).take 2)
      if len < 4 then .error .malformed
      else if b.length < len then .error .truncated
      else
        match unmarshalGo fuel (b.drop (align4 len)) with
        | .ok attrs => .ok (⟨typ, (b.drop 4).take (len - 4)⟩ :: attrs)
        | .error e => .error e

/-- `netlink.UnmarshalAttributes` / walking with `netlink.NewAttributeDecoder`:
parse a byte buffer into its attribute records, failing on a record whose
declared length is shorter than the header (malformed) or extends past the end
of the buffer (truncated). -/
def unmarshalAttrs (b : List Nat) : Except DecodeError (List NLAttr) :=
  unmarshalGo b.length b

/-- `nlenc.String` via `ad.String()`: the value bytes up to a NUL terminator. -/
def nlString (b : List Nat) : List Nat := b.takeWhile (fun x => x != 0)

/-- `ad.Uint8()`: exactly one byte. -/
def adUint8 (b : List Nat) : Except DecodeError Nat :=
  if b.length = 1 then .ok (leNat b) else .error (.invalidLength b.length)

/-- `ad.Uint16()`: exactly two bytes, native (little-endian) order. -/
def adUint16 (b : List Nat) : Except DecodeError Nat :=
  if b.length = 2 then .ok (leNat b) else .error (.invalidLength b.length)

/-- `ad.Uint32()`: exactly four bytes, native (little-endian) order. -/
def adUint32 (b : List Nat) : Except DecodeError Nat :=
  if b.length = 4 then .ok (leNat b) else .error (.invalidLength b.length)

/-- `ad.Uint64()`: exactly eight bytes, native (little-endian) order. -/
def adUint64 (b : List Nat) : Except DecodeError Nat :=
  if b.length = 8 then .ok (leNat b) else .error (.invalidLength b.length)

/-- Modelled from the spec: `wgtypes.NewKey` (package `wgtypes` is not under
src/).  Per the spec (§4.2), the key decoder accepts exactly 32 bytes and any
other length fails with an invalid-length error; the 32 bytes are stored as-is. -/
def NewKey (b : List Nat) : Except DecodeError Key :=
  if b.length = 32 then .ok b else .error (.invalidLength b.length)

/-- `parseKey`: decode a `wgtypes.Key` from a byte slice via `wgtypes.NewKey`. -/
def parseKey (b : List Nat) : Except DecodeError Key := NewKey b

/-- `parseAddr`: a raw `in_addr` or `in6_addr`, exactly 4 or 16 bytes copied
as-is; any other size fails. -/
def parseAddr (b : List Nat) : Except DecodeError (List Nat) :=
  if b.length = 4 ∨ b.length = 16 then .ok b else .error (.invalidLength b.length)

/-- `parseSockaddr`: reinterpret raw `sockaddr_in` / `sockaddr_in6` bytes.
The Go code casts the buffer to `unix.RawSockaddrInet4` / `RawSockaddrInet6`
via `unsafe.Pointer`, so on the little-endian host the `Port` field is the
native little-endian reading of bytes 2..3; the v4 address is bytes 4..7
(then `To4`, identity on four bytes), the v6 address is bytes 8..23. -/
def parseSockaddr (b : List Nat) : Except DecodeError UDPAddr :=
  if b.length = SizeofSockaddrInet4 then
    .ok ⟨(b.drop 4).take 4, leNat ((b.drop 2).take 2)⟩
  else if b.length = SizeofSockaddrInet6 then
    .ok ⟨(b.drop 8).take 16, leNat ((b.drop 2).take 2)⟩
  else .error (.invalidLength b.length)

/-- `parseTimespec`: exactly `unsafe.Sizeof(unix.Timespec{})` = 16 bytes, read
as two native-order signed 64-bit fields (seconds, nanoseconds). -/
def parseTimespec (b : List Nat) : Except DecodeError (Int × Int) :=
  if b.length = 16 then
    .ok (toInt64 (leNat (b.take 8)), toInt64 (leNat ((b.drop 8).take 8)))
  else .error (.invalidLength b.length)

/-- `net.CIDRMask ones bits`: nil (`none`) when `ones` exceeds `bits`. -/
def cidrMask (ones bits : Nat) : Option (Nat × Nat) :=
  if ones ≤ bits then some (ones, bits) else none

/-- One step of the inner attribute loop of `parseAllowedIPs`: state is
`(ip bytes, cidr mask count, address family)`; unknown type codes fall through
the switch unchanged. -/
def parseAllowedIPStep (s : List Nat × Nat × Nat) (a : NLAttr) :
    Except DecodeError (List Nat × Nat × Nat) :=
  if a.typ = AllowedipAIpaddr then do
    let ip ← parseAddr a.data
    .ok (ip, s.2.1, s.2.2)
  else if a.typ = AllowedipACidrMask then do
    let m ← adUint8 a.data
    .ok (s.1, m, s.2.2)
  else if a.typ = AllowedipAFamily then do
    let f ← adUint16 a.data
    .ok (s.1, s.2.1, f)
  else .ok s

/-- The body of `parseAllowedIPs` for one array element: fold the element's
attribute records over the zero state, then derive the mask from the family. -/
def parseAllowedIPAttrList (attrs : List NLAttr) : Except DecodeError IPNet := do
  let s ← attrs.foldlM parseAllowedIPStep ([], 0, 0)
  .ok { ip := s.1
        mask :=
          if s.2.2 = AF_INET then cidrMask s.2.1 32
          else if s.2.2 = AF_INET6 then cidrMask s.2.1 128
          else none }

/-- `parseAllowedIPs`: the payload is a netlink "array"; each element's data is
itself an attribute set describing one `net.IPNet`. -/
def parseAllowedIPs (b : List Nat) : Except DecodeError (List IPNet) := do
  let attrs ← unmarshalAttrs b
  attrs.mapM (fun a => do
    let inner ← unmarshalAttrs a.data
    parseAllowedIPAttrList inner)

/-- One step of the inner attribute loop of `parsePeers`: the Go `switch` over
peer attribute type codes; unknown codes fall through unchanged. -/
def parsePeerStep (p : Peer) (a : NLAttr) : Except DecodeError Peer :=
  if a.typ = PeerAPublicKey then do
    let k ← parseKey a.data
    .ok { p with publicKey := k }
  else if a.typ = PeerAPresharedKey then do
    let k ← parseKey a.data
    .ok { p with presharedKey := k }
  else if a.typ = PeerAEndpoint then do
    let e ← parseSockaddr a.data
    .ok { p with endpoint := some e }
  else if a.typ = PeerAPersistentKeepaliveInterval then do
    let v ← adUint16 a.data
    .ok { p with persistentKeepaliveInterval := v }
  else if a.typ = PeerALastHandshakeTime then do
    let t ← parseTimespec a.data
    .ok { p with lastHandshakeTime := t }
  else if a.typ = PeerARxBytes then do
    let v ← adUint64 a.data
    .ok { p with receiveBytes := toInt64 v }
  else if a.typ = PeerATxBytes then do
    let v ← adUint64 a.data
    .ok { p with transmitBytes := toInt64 v }
  else if a.typ = PeerAAllowedips then do
    let ipns ← parseAllowedIPs a.data
    .ok { p with allowedIPs := ipns }
  else .ok p

/-- The attribute loop of `parsePeers` for one peer: fold the peer's attribute
records over the zero `Peer`. -/
def parsePeerAttrList (attrs : List NLAttr) : Except DecodeError Peer :=
  attrs.foldlM parsePeerStep zeroPeer

/-- `parsePeers`: the payload is a netlink "array"; each element's data is an
attribute set describing one `Peer`, decoded in order. -/
def parsePeers (b : List Nat) : Except DecodeError (List Peer) := do
  let attrs ← unmarshalAttrs b
  attrs.mapM (fun a => do
    let inner ← unmarshalAttrs a.data
    parsePeerAttrList inner)

/-- One step of the attribute loop of `parseDeviceLoop`: the Go `switch` over
device attribute type codes; the interface index is decoded but discarded, and
unknown codes fall through unchanged. -/
def parseDeviceStep (d : Device) (a : NLAttr) : Except DecodeError Device :=
  if a.typ = DeviceAIfindex then .ok d
  else if a.typ = DeviceAIfname then .ok { d with name := nlString a.data }
  else if a.typ = DeviceAPrivateKey then do
    let k ← parseKey a.data
    .ok { d with privateKey := k }
  else if a.typ = DeviceAPublicKey then do
    let k ← parseKey a.data
    .ok { d with publicKey := k }
  else if a.typ = DeviceAListenPort then do
    let v ← adUint16 a.data
    .ok { d with listenPort := v }
  else if a.typ = DeviceAFwmark then do
    let v ← adUint32 a.data
    .ok { d with firewallMark := v }
  else if a.typ = DeviceAPeers then do
    let ps ← parsePeers a.data
    .ok { d with peers := ps }
  else .ok d

/-- The attribute loop of `parseDeviceLoop`: fold the message's attribute
records over the zero `Device`. -/
def parseDeviceAttrList (attrs : List NLAttr) : Except DecodeError Device :=
  attrs.foldlM parseDeviceStep zeroDevice

/-- `parseDeviceLoop`: parse a `Device` from a single generic netlink message. -/
def parseDeviceLoop (m : Message) : Except DecodeError Device := do
  let attrs ← unmarshalAttrs m
  parseDeviceAttrList attrs

/-- The public keys of a peer list, in order. -/
def peerKeys (ps : List Peer) : List Key := ps.map (fun p => p.publicKey)

/-- The merge accumulator of `mergeDevices`: the `known` key set (a Go map used
only for membership, modelled as a list) and the `peers` list of
newly-discovered peers to append. -/
structure MergeAcc where
  known : List Key
  newPeers : List Peer
deriving DecidableEq, Repr

/-- The inner `k`-loop of `mergeDevices` for one target peer: walk the
auxiliary device's peers, collecting the allowed-IP lists of peers matching the
current target peer's public key, and recording genuinely new peers in the
accumulator. -/
def mergeInner (tjKey : Key) : List Peer → MergeAcc → List IPNet × MergeAcc
  | [], acc => ([], acc)
  | dk :: rest, acc =>
    if dk.publicKey = tjKey then
      let r := mergeInner tjKey rest acc
      (dk.allowedIPs ++ r.1, r.2)
    else if dk.publicKey ∈ acc.known then
      mergeInner tjKey rest acc
    else
      mergeInner tjKey rest ⟨dk.publicKey :: acc.known, acc.newPeers ++ [dk]⟩

/-- The outer `j`-loop of `mergeDevices`: each target peer gets the matching
auxiliary allowed-IPs appended; the accumulator threads left to right. -/
def mergeOuter (dPeers : List Peer) : List Peer → MergeAcc → List Peer × MergeAcc
  | [], acc => ([], acc)
  | tj :: rest, acc =>
    let r := mergeInner tj.publicKey dPeers acc
    let s := mergeOuter dPeers rest r.2
    ({ tj with allowedIPs := tj.allowedIPs ++ r.1 } :: s.1, s.2)

/-- `mergeDevices`: merge peer information from `d` into `target`.  The Go
function's error return is always nil, so the model returns the device
directly.  The `known` set is initialised with all of the target's peer keys
before folding. -/
def mergeDevices (target d : Device) : Device :=
  let acc : MergeAcc := ⟨peerKeys target.peers, []⟩
  let r := mergeOuter d.peers target.peers acc
  { target with peers := r.1 ++ r.2.newPeers }

/-- The merging loop of `parseDevice` over the continuation messages. -/
def parseDeviceMerge (first : Device) : List Message → Except DecodeError Device
  | [] => .ok first
  | m :: rest =>
    match parseDeviceLoop m with
    | .error e => .error e
    | .ok d => parseDeviceMerge (mergeDevices first d) rest

/-- `parseDevice`: parse a `Device` from a slice of messages, merging the peer
lists of subsequent messages into the device from the first message; an empty
slice yields the zero `Device`. -/
def parseDevice (msgs : List Message) : Except DecodeError Device :=
  match msgs with
  | [] => .ok zeroDevice
  | m :: rest =>
    match parseDeviceLoop m with
    | .error e => .error e
    | .ok first => parseDeviceMerge first rest

/-- Each message decoded independently by `parseDeviceLoop` (the per-message
decodes performed by the loop of `parseDevice`, listed in order). -/
def decodeAll : List Message → Except DecodeError (List Device)
  | [] => .ok []
  | m :: ms =>
    match parseDeviceLoop m with
    | .error e => .error e
    | .ok d =>
      match decodeAll ms with
      | .error e => .error e
      | .ok ds => .ok (d :: ds)

/-- All allowed-IP entries attributed to public key `K` in a peer list, in
order: occurrences for `K` concatenated, duplicates kept. -/
def ipsFor (K : Key) : List Peer → List IPNet
  | [] => []
  | p :: ps => if p.publicKey = K then p.allowedIPs ++ ipsFor K ps else ipsFor K ps

/-- All allowed-IP entries attributed to `K` across a sequence of decoded
devices, in message order. -/
def devicesIps (K : Key) : List Device → List IPNet
  | [] => []
  | d :: ds => ipsFor K d.peers ++ devicesIps K ds

/-- The invariant of the merge accumulator relative to the target's key set:
the target keys are known; the collected new peers have pairwise-distinct keys,
none of which is a target key, and all of which are known. -/
def accInv (tks : List Key) (acc : MergeAcc) : Prop :=
  (∀ k ∈ tks, k ∈ acc.known) ∧
  (peerKeys acc.newPeers).Nodup ∧
  (∀ k ∈ peerKeys acc.newPeers, k ∉ tks) ∧
  (∀ k ∈ peerKeys acc.newPeers, k ∈ acc.known)

/-- Modelled from the spec: `wgtypes.Config` (package `wgtypes` is not under
src/).  A sparse write-model; every field is present-or-absent (§3). -/
structure Config where
  privateKey : Option Key
  listenPort : Option Nat
  firewallMark : Option Nat
  replacePeers : Bool
deriving DecidableEq, Repr

/-- `nlenc.Bytes`: a Go string as a NUL-terminated byte slice. -/
def nlencBytes (s : List Nat) : List Nat := s ++ [0]

/-- `configAttrs`: the attribute list for a "set device" command; always the
interface name first, then the private key only when present.  The Go error
return is always nil. -/
def configAttrs (name : List Nat) (cfg : Config) : Except DecodeError (List NLAttr) :=
  let attrs : List NLAttr := [⟨DeviceAIfname, nlencBytes name⟩]
  let attrs :=
    match cfg.privateKey with
    | some k => attrs ++ [⟨DeviceAPrivateKey, k⟩]
    | none => attrs
  .ok attrs

/-- Errors surfaced by `getDevice`: `os.ErrNotExist`, a decode error from
`parseDevice`, or a transport failure. -/
inductive GoErr where
  | notExist
  | decode (e : DecodeError)
  | transport
deriving DecidableEq, Repr

/-- `os.IsNotExist` on the errors that occur here. -/
def isNotExist : GoErr → Bool
  | .notExist => true
  | _ => false

/-- `nlenc.Uint32Bytes`: a 32-bit value in native (little-endian) byte order. -/
def uint32Bytes (n : Nat) : List Nat :=
  [n % 256, n / 256 % 256, n / 65536 % 256, n / 16777216 % 256]

/-- Go `uint32(index)` on an `int` index: two's-complement truncation. -/
def intToUint32 (i : Int) : Nat := (i % 4294967296).toNat

/-- `getDevice`: choose the query attribute from index (preferred) or name;
with neither, fail immediately with `os.ErrNotExist`.  The transport
(`client.execute`) is an external collaborator, abstracted as a function from
the request's attribute list to its response messages. -/
def getDevice (execute : List NLAttr → Except GoErr (List Message))
    (index : Int) (name : List Nat) : Except GoErr Device :=
  if index ≠ 0 then
    match execute [⟨DeviceAIfindex, uint32Bytes (intToUint32 index)⟩] with
    | .error e => .error e
    | .ok msgs => (parseDevice msgs).mapError GoErr.decode
  else if name ≠ [] then
    match execute [⟨DeviceAIfname, nlencBytes name⟩] with
    | .error e => .error e
    | .ok msgs => (parseDevice msgs).mapError GoErr.decode
  else .error .notExist

/-! Concrete data used by the witness and counterexample theorems.  Each claim
gets its own copies. -/

/-- A concrete 32-byte key (for claim C1's witness). -/
def kA1 : Key := List.replicate 32 1

/-- A concrete 32-byte key (for claim C1's witness). -/
def kB1 : Key := List.replicate 32 2

/-- A concrete 32-byte key (for claim C1's witness). -/
def kC1 : Key := List.replicate 32 3

/-- Concrete peer A for claim C1's witness. -/
def pA1 : Peer := { zeroPeer with publicKey := kA1, allowedIPs := [⟨[1, 1, 1, 1], cidrMask 24 32⟩] }

/-- Concrete peer B for claim C1's witness. -/
def pB1 : Peer := { zeroPeer with publicKey := kB1 }

/-- Concrete peer C for claim C1's witness. -/
def pC1 : Peer := { zeroPeer with publicKey := kC1, allowedIPs := [⟨[7, 7, 7, 7], cidrMask 16 32⟩] }

/-- Concrete target device for claim C1's witness. -/
def tgt1 : Device := { zeroDevice with peers := [pA1, pB1] }

/-- Concrete continuation device for claim C1's witness. -/
def cont1 : Device :=
  { zeroDevice with peers := [{ pA1 with allowedIPs := [⟨[10, 0, 0, 1], cidrMask 32 32⟩] }, pC1] }

/-- A concrete key for claim C2's counterexample. -/
def kC2cex : Key := List.replicate 32 9

/-- A concrete auxiliary peer for claim C2. -/
def pC2cex : Peer :=
  { zeroPeer with publicKey := kC2cex, allowedIPs := [⟨[10, 0, 0, 9], cidrMask 32 32⟩] }

/-- Auxiliary device with one peer, for claim C2's counterexample: its single
peer is new relative to an empty target but is nevertheless dropped. -/
def devC2cex : Device := { zeroDevice with peers := [pC2cex] }

/-- The raw v4 sockaddr payload for claim C5: family AF_INET (little-endian
2, 0), port 51820 in wire (big-endian network) order `0xCA 0x6C`, address
192.168.1.1, eight bytes of padding. -/
def sockaddrC5 : List Nat := [2, 0, 202, 108, 192, 168, 1, 1, 0, 0, 0, 0, 0, 0, 0, 0]

/-- Concrete non-empty target device for claim C2's witness. -/
def tgtC2w : Device := { zeroDevice with peers := [{ zeroPeer with publicKey := List.replicate 32 4 }] }

/-- The device attribute type codes handled by the `switch` of
`parseDeviceLoop` (the interface index is handled — and discarded). -/
def deviceKnownCodes : List Nat :=
  [DeviceAIfindex, DeviceAIfname, DeviceAPrivateKey, DeviceAPublicKey,
   DeviceAListenPort, DeviceAFwmark, DeviceAPeers]

/-- The peer attribute type codes handled by the `switch` of `parsePeers`. -/
def peerKnownCodes : List Nat :=
  [PeerAPublicKey, PeerAPresharedKey, PeerAEndpoint,
   PeerAPersistentKeepaliveInterval, PeerALastHandshakeTime,
   PeerARxBytes, PeerATxBytes, PeerAAllowedips]

/-- The allowed-IP attribute type codes handled by the `switch` of
`parseAllowedIPs`. -/
def allowedIPKnownCodes : List Nat :=
  [AllowedipAFamily, AllowedipAIpaddr, AllowedipACidrMask]

/-- A well-formed attribute with an unrecognized type code, for claim C7's
witness. -/
def c7a : NLAttr := ⟨1000, [1, 2, 3]⟩

/-- Concrete surrounding attributes for claim C7's witness. -/
def c7l1 : List NLAttr := [⟨2, [119, 103, 48, 0]⟩]

/-- Concrete surrounding attributes for claim C7's witness. -/
def c7l2 : List NLAttr := [⟨6, [108, 202]⟩]

/-- A concrete 32-byte key (claim C3). -/
def kEC3 : Key := List.replicate 32 5

/-- A concrete 32-byte key (claim C3). -/
def kFC3 : Key := List.replicate 32 6

/-- A concrete 32-byte key (claim C3). -/
def kGC3 : Key := List.replicate 32 7

/-- A wire-encoded peer public-key attribute (type 1, 32 data bytes). -/
def keyAttrC3 (k : Key) : List Nat := [36, 0, 1, 0] ++ k

/-- A wire-encoded peer array element holding only a public-key attribute. -/
def peerEntryC3 (k : Key) : List Nat := [40, 0, 0, 0] ++ keyAttrC3 k

/-- A wire-encoded allowed-IP array element: family AF_INET, address 10.0.0.1,
mask /32 (each inner attribute padded to 4-byte alignment). -/
def allowedIPElemC3 : List Nat :=
  [28, 0, 0, 0] ++ ([6, 0, 1, 0, 2, 0] ++ [0, 0]) ++
    [8, 0, 2, 0, 10, 0, 0, 1] ++ ([5, 0, 3, 0, 32] ++ [0, 0, 0])

/-- A wire-encoded peer array element with key `kEC3` and one allowed-IP. -/
def peerEntryEC3 : List Nat :=
  [72, 0, 0, 0] ++ keyAttrC3 kEC3 ++ ([32, 0, 9, 0] ++ allowedIPElemC3)

/-- First message for claim C3's witness: a device with peers E, F. -/
def msg1C3 : Message := [84, 0, 8, 0] ++ peerEntryC3 kEC3 ++ peerEntryC3 kFC3

/-- Continuation message for claim C3's witness: peer E carrying allowed-IP
10.0.0.1/32 and a new peer G. -/
def msg2C3 : Message := [116, 0, 8, 0] ++ peerEntryEC3 ++ peerEntryC3 kGC3

/-- The decode of `msg1C3` and `msg2C3`, written out. -/
def dsC3w : List Device :=
  [{ zeroDevice with peers := [{ zeroPeer with publicKey := kEC3 }, { zeroPeer with publicKey := kFC3 }] },
   { zeroDevice with peers :=
      [{ zeroPeer with publicKey := kEC3, allowedIPs := [⟨[10, 0, 0, 1], some (32, 32)⟩] },
       { zeroPeer with publicKey := kGC3 }] }]

/-- The device produced by `parseDevice [msg1C3, msg2C3]`, written out. -/
def devC3w : Device :=
  { zeroDevice with peers :=
      [{ zeroPeer with publicKey := kEC3, allowedIPs := [⟨[10, 0, 0, 1], some (32, 32)⟩] },
       { zeroPeer with publicKey := kFC3 },
       { zeroPeer with publicKey := kGC3 }] }

/-- A concrete 32-byte key (claim C3's counterexample). -/
def kC3cex : Key := List.replicate 32 8

/-- A single message whose peers attribute holds two peers with the same public
key (claim C3's counterexample). -/
def msgC3cex : Message := [84, 0, 8, 0] ++ peerEntryC3 kC3cex ++ peerEntryC3 kC3cex

/-- The decode of `msgC3cex`: two peers sharing one public key. -/
def devC3cex : Device :=
  { zeroDevice with peers :=
      [{ zeroPeer with publicKey := kC3cex }, { zeroPeer with publicKey := kC3cex }] }

/-! Theorems. -/

/-- C10: `parseDevice` applied to an empty message sequence does not fail: it
returns the zero-value `Device` (empty name, zero keys, zero ports, empty peer
list) and no error. -/
theorem claim_C10_parse_empty :
    parseDevice [] =
      .ok { name := []
            privateKey := List.replicate 32 0
            publicKey := List.replicate 32 0
            listenPort := 0
            firewallMark := 0
            peers := [] } := rfl

/-- C4: for every single-message input, `parseDevice` applied to that one
message equals `parseDeviceLoop` on that message alone; the merge step
contributes no change. -/
theorem claim_C4_single_message (m : Message) :
    parseDevice [m] = parseDeviceLoop m := by
  cases h : parseDeviceLoop m <;> simp [parseDevice, parseDeviceMerge, h]

/-- C9: a device query specifying neither a non-zero index nor a non-empty name
fails immediately with `os.ErrNotExist` (classified "not found" by
`os.IsNotExist`), for every transport — i.e. without executing any transport
request. -/
theorem claim_C9_unknown_identity
    (execute : List NLAttr → Except GoErr (List Message)) :
    getDevice execute 0 [] = .error .notExist ∧ isNotExist .notExist = true := by
  constructor <;> rfl

/-- C8: for every interface name and sparse `Config`, `configAttrs` succeeds and
returns exactly the interface-name attribute first, followed by a private-key
attribute (with the 32 key bytes) precisely when the config's private key is
present, and nothing else. -/
theorem claim_C8_config_attrs (name : List Nat) (cfg : Config) :
    configAttrs name cfg =
      .ok (⟨DeviceAIfname, nlencBytes name⟩ ::
        (match cfg.privateKey with
         | some k => [⟨DeviceAPrivateKey, k⟩]
         | none => [])) := by
  cases h : cfg.privateKey <;> simp [configAttrs, h]

/-- C6: key decoding fails with an invalid-length error for every input whose
length is not exactly 32 bytes, and succeeds for every 32-byte input, storing
those exact bytes. -/
theorem claim_C6_key_length :
    (∀ b : List Nat, b.length ≠ 32 → parseKey b = .error (.invalidLength b.length)) ∧
    (∀ b : List Nat, b.length = 32 → parseKey b = .ok b) := by
  constructor <;> intro b h <;> simp [parseKey, NewKey, h]

/-- Witness for C6 at concrete inputs: 31- and 33-byte inputs fail with the
invalid-length error, an arbitrary 32-byte input succeeds with its bytes. -/
theorem claim_C6_key_length_witness :
    parseKey (List.replicate 31 0) = .error (.invalidLength 31) ∧
    parseKey (List.replicate 33 0) = .error (.invalidLength 33) ∧
    parseKey (List.replicate 32 7) = .ok (List.replicate 32 7) :=
  ⟨claim_C6_key_length.1 (List.replicate 31 0) (by decide),
   claim_C6_key_length.1 (List.replicate 33 0) (by decide),
   claim_C6_key_length.2 (List.replicate 32 7) (by decide)⟩

/-- C5 (evaluation at the failing input): on the correctly sized v4 payload
carrying address 192.168.1.1 and port 51820 in wire (big-endian) order,
`parseSockaddr` returns the address correctly but the port read natively as
27850, not 51820 — the wire byte order is not reversed; wrong-size payloads do
fail with the invalid-length error. -/
theorem claim_C5_sockaddr_eval :
    parseSockaddr sockaddrC5 = .ok ⟨[192, 168, 1, 1], 27850⟩ ∧
    (27850 : Nat) ≠ 51820 ∧
    parseSockaddr (List.replicate 15 0) = .error (.invalidLength 15) ∧
    parseSockaddr (List.replicate 17 0) = .error (.invalidLength 17) := by
  refine ⟨by decide, by decide, by decide, by decide⟩

/-- C1: merging a target with peers `[A, B]` (distinct keys) with one
continuation device holding a peer with A's key carrying allowed-IP
10.0.0.1/32 and a new peer C yields peers `[A, B, C]` in order, with the
10.0.0.1/32 entry appended to A's allowed-IPs, B unchanged, and C carried over
verbatim. -/
theorem claim_C1_merge_union (t d : Device) (pA pB pACont pC : Peer)
    (ht : t.peers = [pA, pB]) (hd : d.peers = [pACont, pC])
    (hk : pACont.publicKey = pA.publicKey)
    (hips : pACont.allowedIPs = [⟨[10, 0, 0, 1], cidrMask 32 32⟩])
    (hAB : pA.publicKey ≠ pB.publicKey)
    (hCA : pC.publicKey ≠ pA.publicKey)
    (hCB : pC.publicKey ≠ pB.publicKey) :
    mergeDevices t d =
      { t with peers :=
          [{ pA with allowedIPs := pA.allowedIPs ++ [⟨[10, 0, 0, 1], cidrMask 32 32⟩] }, pB, pC] } := by
  simp only [mergeDevices, ht, hd]
  simp [mergeOuter, mergeInner, peerKeys, hk, hips, hAB, hCA, hCB, List.mem_cons]

/-- Witness for C1 at concrete devices with three distinct concrete keys. -/
theorem claim_C1_merge_union_witness :
    mergeDevices tgt1 cont1 =
      { tgt1 with peers :=
          [{ pA1 with allowedIPs := pA1.allowedIPs ++ [⟨[10, 0, 0, 1], cidrMask 32 32⟩] }, pB1, pC1] } :=
  claim_C1_merge_union tgt1 cont1 pA1 pB1
    { pA1 with allowedIPs := [⟨[10, 0, 0, 1], cidrMask 32 32⟩] } pC1
    rfl rfl rfl rfl (by decide) (by decide) (by decide)

/-- Counterexample to C2 as stated: with an empty target peer list, an
auxiliary peer whose key is new is not appended — `mergeDevices` drops it
because the outer loop over target peers never runs. -/
theorem claim_C2_cex :
    kC2cex ∈ peerKeys devC2cex.peers ∧
    kC2cex ∉ peerKeys zeroDevice.peers ∧
    kC2cex ∉ peerKeys (mergeDevices zeroDevice devC2cex).peers := by
  refine ⟨by decide, by decide, by decide⟩

/-! Invariants of the `mergeDevices` accumulator. -/

/-- `peerKeys` distributes over cons. -/
theorem peerKeys_cons (p : Peer) (l : List Peer) :
    peerKeys (p :: l) = p.publicKey :: peerKeys l := rfl

/-- `peerKeys` distributes over append. -/
theorem peerKeys_append (l1 l2 : List Peer) :
    peerKeys (l1 ++ l2) = peerKeys l1 ++ peerKeys l2 := by
  simp [peerKeys]

/-- The `known` set only grows during the inner loop. -/
theorem mergeInner_known_mono (tjKey : Key) (l : List Peer) (acc : MergeAcc) (k : Key)
    (h : k ∈ acc.known) : k ∈ (mergeInner tjKey l acc).2.known := by
  induction l generalizing acc with
  | nil => simpa [mergeInner] using h
  | cons dk rest ih =>
    by_cases h1 : dk.publicKey = tjKey
    · simpa [mergeInner, h1] using ih acc h
    · by_cases h2 : dk.publicKey ∈ acc.known
      · simpa [mergeInner, h1, h2] using ih acc h
      · simpa [mergeInner, h1, h2] using
          ih ⟨dk.publicKey :: acc.known, acc.newPeers ++ [dk]⟩ (List.mem_cons_of_mem _ h)

/-- The keys of already-collected new peers persist through the inner loop. -/
theorem mergeInner_newPeers_mono (tjKey : Key) (l : List Peer) (acc : MergeAcc) (k : Key)
    (h : k ∈ peerKeys acc.newPeers) :
    k ∈ peerKeys (mergeInner tjKey l acc).2.newPeers := by
  induction l generalizing acc with
  | nil => simpa [mergeInner] using h
  | cons dk rest ih =>
    by_cases h1 : dk.publicKey = tjKey
    · simpa [mergeInner, h1] using ih acc h
    · by_cases h2 : dk.publicKey ∈ acc.known
      · simpa [mergeInner, h1, h2] using ih acc h
      · have h3 : k ∈ peerKeys ((⟨dk.publicKey :: acc.known, acc.newPeers ++ [dk]⟩ : MergeAcc).newPeers) := by
          show k ∈ peerKeys (acc.newPeers ++ [dk])
          rw [peerKeys_append]
          exact List.mem_append_left _ h
        simpa [mergeInner, h1, h2] using ih _ h3

/-- After the inner loop, every auxiliary peer key either matched the current
target key or is recorded as known. -/
theorem mergeInner_mem_known (tjKey : Key) (l : List Peer) (acc : MergeAcc) (k : Key)
    (hk : k ∈ peerKeys l) (hne : k ≠ tjKey) :
    k ∈ (mergeInner tjKey l acc).2.known := by
  induction l generalizing acc with
  | nil => simp [peerKeys] at hk
  | cons dk rest ih =>
    rw [peerKeys_cons] at hk
    rcases List.mem_cons.mp hk with hhead | htail
    · by_cases h1 : dk.publicKey = tjKey
      · exact absurd (hhead.trans h1) hne
      · by_cases h2 : dk.publicKey ∈ acc.known
        · simpa [mergeInner, h1, h2] using
            mergeInner_known_mono tjKey rest acc k (hhead ▸ h2)
        · have h3 : k ∈ ((⟨dk.publicKey :: acc.known, acc.newPeers ++ [dk]⟩ : MergeAcc)).known :=
            List.mem_cons.mpr (Or.inl hhead)
          simpa [mergeInner, h1, h2] using
            mergeInner_known_mono tjKey rest _ k h3
    · by_cases h1 : dk.publicKey = tjKey
      · simpa [mergeInner, h1] using ih acc htail
      · by_cases h2 : dk.publicKey ∈ acc.known
        · simpa [mergeInner, h1, h2] using ih acc htail
        · simpa [mergeInner, h1, h2] using
            ih ⟨dk.publicKey :: acc.known, acc.newPeers ++ [dk]⟩ htail

/-- Every key known after the inner loop was either known before or belongs to
a collected new peer. -/
theorem mergeInner_known_newPeers (tjKey : Key) (l : List Peer) (acc : MergeAcc) (k : Key)
    (h : k ∈ (mergeInner tjKey l acc).2.known) :
    k ∈ acc.known ∨ k ∈ peerKeys (mergeInner tjKey l acc).2.newPeers := by
  induction l generalizing acc with
  | nil => exact Or.inl (by simpa [mergeInner] using h)
  | cons dk rest ih =>
    by_cases h1 : dk.publicKey = tjKey
    · have h' := ih acc (by simpa [mergeInner, h1] using h)
      simpa [mergeInner, h1] using h'
    · by_cases h2 : dk.publicKey ∈ acc.known
      · have h' := ih acc (by simpa [mergeInner, h1, h2] using h)
        simpa [mergeInner, h1, h2] using h'
      · have h' := ih ⟨dk.publicKey :: acc.known, acc.newPeers ++ [dk]⟩
          (by simpa [mergeInner, h1, h2] using h)
        rcases h' with h' | h'
        · rcases List.mem_cons.mp h' with hk' | hk'
          · have h3 : k ∈ peerKeys ((⟨dk.publicKey :: acc.known, acc.newPeers ++ [dk]⟩ : MergeAcc)).newPeers := by
              show k ∈ peerKeys (acc.newPeers ++ [dk])
              rw [peerKeys_append]
              exact List.mem_append_right _ (by rw [peerKeys_cons]; exact List.mem_cons.mpr (Or.inl hk'))
            refine Or.inr ?_
            simpa [mergeInner, h1, h2] using
              mergeInner_newPeers_mono tjKey rest ⟨dk.publicKey :: acc.known, acc.newPeers ++ [dk]⟩ k h3
          · exact Or.inl hk'
        · exact Or.inr (by simpa [mergeInner, h1, h2] using h')

/-- The `known` set only grows during the outer loop. -/
theorem mergeOuter_known_mono (dPeers : List Peer) (l : List Peer) (acc : MergeAcc) (k : Key)
    (h : k ∈ acc.known) : k ∈ (mergeOuter dPeers l acc).2.known := by
  induction l generalizing acc with
  | nil => simpa [mergeOuter] using h
  | cons tj rest ih =>
    simpa [mergeOuter] using
      ih (mergeInner tj.publicKey dPeers acc).2
        (mergeInner_known_mono tj.publicKey dPeers acc k h)

/-- The keys of already-collected new peers persist through the outer loop. -/
theorem mergeOuter_newPeers_mono (dPeers : List Peer) (l : List Peer) (acc : MergeAcc) (k : Key)
    (h : k ∈ peerKeys acc.newPeers) :
    k ∈ peerKeys (mergeOuter dPeers l acc).2.newPeers := by
  induction l generalizing acc with
  | nil => simpa [mergeOuter] using h
  | cons tj rest ih =>
    simpa [mergeOuter] using
      ih (mergeInner tj.publicKey dPeers acc).2
        (mergeInner_newPeers_mono tj.publicKey dPeers acc k h)

/-- Every key known after the outer loop was either known at the start or
belongs to a collected new peer. -/
theorem mergeOuter_known_newPeers (dPeers : List Peer) (l : List Peer) (acc : MergeAcc) (k : Key)
    (h : k ∈ (mergeOuter dPeers l acc).2.known) :
    k ∈ acc.known ∨ k ∈ peerKeys (mergeOuter dPeers l acc).2.newPeers := by
  induction l generalizing acc with
  | nil => exact Or.inl (by simpa [mergeOuter] using h)
  | cons tj rest ih =>
    have h' := ih (mergeInner tj.publicKey dPeers acc).2 (by simpa [mergeOuter] using h)
    rcases h' with h' | h'
    · rcases mergeInner_known_newPeers tj.publicKey dPeers acc k h' with h'' | h''
      · exact Or.inl h''
      · refine Or.inr ?_
        simpa [mergeOuter] using
          mergeOuter_newPeers_mono dPeers rest (mergeInner tj.publicKey dPeers acc).2 k h''
    · exact Or.inr (by simpa [mergeOuter] using h')

/-- A peer already collected as new persists, as its full record, through the
inner loop. -/
theorem mergeInner_newPeers_mem_mono (tjKey : Key) (l : List Peer) (acc : MergeAcc) (p : Peer)
    (h : p ∈ acc.newPeers) : p ∈ (mergeInner tjKey l acc).2.newPeers := by
  induction l generalizing acc with
  | nil => simpa [mergeInner] using h
  | cons dk rest ih =>
    by_cases h1 : dk.publicKey = tjKey
    · simpa [mergeInner, h1] using ih acc h
    · by_cases h2 : dk.publicKey ∈ acc.known
      · simpa [mergeInner, h1, h2] using ih acc h
      · have h3 : p ∈ ((⟨dk.publicKey :: acc.known, acc.newPeers ++ [dk]⟩ : MergeAcc)).newPeers :=
          List.mem_append_left _ h
        simpa [mergeInner, h1, h2] using ih _ h3

/-- A peer already collected as new persists, as its full record, through the
outer loop. -/
theorem mergeOuter_newPeers_mem_mono (dPeers l : List Peer) (acc : MergeAcc) (p : Peer)
    (h : p ∈ acc.newPeers) : p ∈ (mergeOuter dPeers l acc).2.newPeers := by
  induction l generalizing acc with
  | nil => simpa [mergeOuter] using h
  | cons tj rest ih =>
    simpa [mergeOuter] using
      ih (mergeInner tj.publicKey dPeers acc).2
        (mergeInner_newPeers_mem_mono tj.publicKey dPeers acc p h)

/-- The first auxiliary peer carrying a not-yet-known key other than the
current target key is appended, as its full record, to the collected new peers
by the inner loop. -/
theorem mergeInner_adds_first (tjKey : Key) (l2 : List Peer) (p : Peer)
    (hne : p.publicKey ≠ tjKey) :
    ∀ (l1 : List Peer) (acc : MergeAcc),
      p.publicKey ∉ peerKeys l1 → p.publicKey ∉ acc.known →
      p ∈ (mergeInner tjKey (l1 ++ p :: l2) acc).2.newPeers := by
  intro l1
  induction l1 with
  | nil =>
    intro acc _ hkn
    have h3 : p ∈ ((⟨p.publicKey :: acc.known, acc.newPeers ++ [p]⟩ : MergeAcc)).newPeers :=
      List.mem_append_right _ (List.mem_singleton.mpr rfl)
    simpa [mergeInner, hne, hkn] using
      mergeInner_newPeers_mem_mono tjKey l2 _ p h3
  | cons dk l1' ih =>
    intro acc hfirst hkn
    rw [peerKeys_cons] at hfirst
    have hpdk : ¬ p.publicKey = dk.publicKey := fun hh => hfirst (List.mem_cons.mpr (Or.inl hh))
    have hfirst' : p.publicKey ∉ peerKeys l1' := fun hh => hfirst (List.mem_cons.mpr (Or.inr hh))
    by_cases h1 : dk.publicKey = tjKey
    · simpa [mergeInner, h1] using ih acc hfirst' hkn
    · by_cases h2 : dk.publicKey ∈ acc.known
      · simpa [mergeInner, h1, h2] using ih acc hfirst' hkn
      · have hkn' : p.publicKey ∉
            ((⟨dk.publicKey :: acc.known, acc.newPeers ++ [dk]⟩ : MergeAcc)).known := by
          intro hh
          rcases List.mem_cons.mp hh with hh | hh
          · exact hpdk hh
          · exact hkn hh
        simpa [mergeInner, h1, h2] using ih _ hfirst' hkn'

/-- C2 (amended): for every target `Device` with a non-empty peer list, every
auxiliary peer whose public key does not occur among the target's peer keys
and has not already been added during this merge (no earlier auxiliary peer
carries the same key) is appended, as its full record, to the merged device's
peer list; with an empty target peer list `mergeDevices` appends nothing (see
the counterexample). -/
theorem claim_C2_new_peer (target d : Device) (p : Peer) (l1 l2 : List Peer)
    (hne : target.peers ≠ [])
    (hd : d.peers = l1 ++ p :: l2)
    (hfirst : p.publicKey ∉ peerKeys l1)
    (hnot : p.publicKey ∉ peerKeys target.peers) :
    p ∈ (mergeDevices target d).peers := by
  obtain ⟨t0, ts, hts⟩ := List.exists_cons_of_ne_nil hne
  have h0 : p.publicKey ≠ t0.publicKey := by
    intro hh
    refine hnot ?_
    rw [hts, peerKeys_cons]
    exact List.mem_cons.mpr (Or.inl hh)
  have h1 : p ∈ (mergeInner t0.publicKey d.peers
      ⟨peerKeys target.peers, []⟩).2.newPeers := by
    rw [hd]
    exact mergeInner_adds_first t0.publicKey l2 p h0 l1 _ hfirst hnot
  have h2 : p ∈ (mergeOuter d.peers target.peers
      ⟨peerKeys target.peers, []⟩).2.newPeers := by
    rw [hts]
    simpa [mergeOuter] using
      mergeOuter_newPeers_mem_mono d.peers ts _ p (by rw [hts] at h1; exact h1)
  simp only [mergeDevices]
  exact List.mem_append_right _ h2

/-- Witness for C2 at a concrete non-empty target and a concrete auxiliary
device with a genuinely new peer: the full peer record is in the merged list. -/
theorem claim_C2_new_peer_witness :
    pC2cex ∈ (mergeDevices tgtC2w devC2cex).peers :=
  claim_C2_new_peer tgtC2w devC2cex pC2cex [] []
    (by decide) (by decide) (by decide) (by decide)

/-! Unknown-attribute tolerance. -/

/-- Dropping a fold step that is the identity on every state leaves an
`Except`-valued left fold unchanged. -/
theorem foldlM_except_skip {α β ε : Type} (f : β → α → Except ε β) (a : α)
    (hf : ∀ b, f b a = .ok b) (l1 l2 : List α) (b : β) :
    (l1 ++ a :: l2).foldlM f b = (l1 ++ l2).foldlM f b := by
  induction l1 generalizing b with
  | nil =>
    simp only [List.nil_append, List.foldlM_cons, hf]
    rfl
  | cons x xs ih =>
    simp only [List.cons_append, List.foldlM_cons]
    cases hx : f b x with
    | error e => rfl
    | ok b' => simpa [hx] using ih b'

/-- An attribute whose type code is none of the handled device codes leaves the
device state unchanged (the Go `switch` has no default case). -/
theorem parseDeviceStep_unknown (d : Device) (a : NLAttr)
    (h : a.typ ∉ deviceKnownCodes) : parseDeviceStep d a = .ok d := by
  simp only [deviceKnownCodes, List.mem_cons, List.not_mem_nil, or_false, not_or] at h
  obtain ⟨h1, h2, h3, h4, h5, h6, h7⟩ := h
  simp [parseDeviceStep, h1, h2, h3, h4, h5, h6, h7]

/-- An attribute whose type code is none of the handled peer codes leaves the
peer state unchanged. -/
theorem parsePeerStep_unknown (p : Peer) (a : NLAttr)
    (h : a.typ ∉ peerKnownCodes) : parsePeerStep p a = .ok p := by
  simp only [peerKnownCodes, List.mem_cons, List.not_mem_nil, or_false, not_or] at h
  obtain ⟨h1, h2, h3, h4, h5, h6, h7, h8⟩ := h
  simp [parsePeerStep, h1, h2, h3, h4, h5, h6, h7, h8]

/-- An attribute whose type code is none of the handled allowed-IP codes leaves
the allowed-IP state unchanged. -/
theorem parseAllowedIPStep_unknown (s : List Nat × Nat × Nat) (a : NLAttr)
    (h : a.typ ∉ allowedIPKnownCodes) : parseAllowedIPStep s a = .ok s := by
  simp only [allowedIPKnownCodes, List.mem_cons, List.not_mem_nil, or_false, not_or] at h
  obtain ⟨h1, h2, h3⟩ := h
  simp [parseAllowedIPStep, h1, h2, h3]

/-- C7: a well-formed attribute with an unrecognized type code, interleaved
anywhere between other attributes, does not change the decode result — at the
device level, the peer level, and the allowed-IP level alike (so a message
that decodes successfully without the record also decodes successfully with
it, to the same value). -/
theorem claim_C7_unknown_tolerated (l1 l2 : List NLAttr) (a : NLAttr) :
    (a.typ ∉ deviceKnownCodes →
      parseDeviceAttrList (l1 ++ a :: l2) = parseDeviceAttrList (l1 ++ l2)) ∧
    (a.typ ∉ peerKnownCodes →
      parsePeerAttrList (l1 ++ a :: l2) = parsePeerAttrList (l1 ++ l2)) ∧
    (a.typ ∉ allowedIPKnownCodes →
      parseAllowedIPAttrList (l1 ++ a :: l2) = parseAllowedIPAttrList (l1 ++ l2)) := by
  refine ⟨fun h => ?_, fun h => ?_, fun h => ?_⟩
  · exact foldlM_except_skip parseDeviceStep a
      (fun d => parseDeviceStep_unknown d a h) l1 l2 zeroDevice
  · exact foldlM_except_skip parsePeerStep a
      (fun p => parsePeerStep_unknown p a h) l1 l2 zeroPeer
  · unfold parseAllowedIPAttrList
    rw [foldlM_except_skip parseAllowedIPStep a
      (fun s => parseAllowedIPStep_unknown s a h) l1 l2 ([], 0, 0)]

/-- Witness for C7 at concrete attribute lists, with an unknown type code 1000
interleaved at every nesting level. -/
theorem claim_C7_unknown_tolerated_witness :
    parseDeviceAttrList (c7l1 ++ c7a :: c7l2) = parseDeviceAttrList (c7l1 ++ c7l2) ∧
    parsePeerAttrList (c7l1 ++ c7a :: c7l2) = parsePeerAttrList (c7l1 ++ c7l2) ∧
    parseAllowedIPAttrList (c7l1 ++ c7a :: c7l2) = parseAllowedIPAttrList (c7l1 ++ c7l2) :=
  ⟨(claim_C7_unknown_tolerated c7l1 c7l2 c7a).1 (by decide),
   (claim_C7_unknown_tolerated c7l1 c7l2 c7a).2.1 (by decide),
   (claim_C7_unknown_tolerated c7l1 c7l2 c7a).2.2 (by decide)⟩

/-! Allowed-IP bookkeeping for the merge postcondition. -/

/-- A member's key is among the peer keys. -/
theorem mem_peerKeys_of_mem {p : Peer} {ps : List Peer} (h : p ∈ ps) :
    p.publicKey ∈ peerKeys ps :=
  List.mem_map_of_mem _ h

/-- `ipsFor` distributes over append. -/
theorem ipsFor_append (K : Key) (l1 l2 : List Peer) :
    ipsFor K (l1 ++ l2) = ipsFor K l1 ++ ipsFor K l2 := by
  induction l1 with
  | nil => simp [ipsFor]
  | cons p ps ih =>
    by_cases h : p.publicKey = K <;> simp [ipsFor, h, ih]

/-- A key that occurs in no peer collects no allowed-IPs. -/
theorem ipsFor_eq_nil (K : Key) (ps : List Peer) (h : K ∉ peerKeys ps) :
    ipsFor K ps = [] := by
  induction ps with
  | nil => rfl
  | cons p ps ih =>
    rw [peerKeys_cons] at h
    have h1 : ¬ p.publicKey = K := fun hh => h (List.mem_cons.mpr (Or.inl hh.symm))
    have h2 : K ∉ peerKeys ps := fun hh => h (List.mem_cons.mpr (Or.inr hh))
    simp [ipsFor, h1, ih h2]

/-- With pairwise-distinct keys, a member peer collects exactly its own
allowed-IPs. -/
theorem ipsFor_self (ps : List Peer) (h : (peerKeys ps).Nodup) (p : Peer) (hp : p ∈ ps) :
    ipsFor p.publicKey ps = p.allowedIPs := by
  induction ps with
  | nil => cases hp
  | cons q ps ih =>
    rw [peerKeys_cons] at h
    obtain ⟨hq, hps⟩ := List.nodup_cons.mp h
    rcases List.mem_cons.mp hp with rfl | hp'
    · simp [ipsFor, ipsFor_eq_nil _ _ hq]
    · have hqp : ¬ q.publicKey = p.publicKey := by
        intro hh
        exact hq (hh ▸ mem_peerKeys_of_mem hp')
      simp [ipsFor, hqp, ih hps hp']

/-- The inner loop collects exactly the auxiliary allowed-IPs attributed to the
current target key, independently of the accumulator. -/
theorem mergeInner_fst (tjKey : Key) (l : List Peer) (acc : MergeAcc) :
    (mergeInner tjKey l acc).1 = ipsFor tjKey l := by
  induction l generalizing acc with
  | nil => rfl
  | cons dk rest ih =>
    by_cases h1 : dk.publicKey = tjKey
    · simp [mergeInner, ipsFor, h1, ih]
    · by_cases h2 : dk.publicKey ∈ acc.known <;>
        simp [mergeInner, ipsFor, h1, h2, ih]

/-- The outer loop returns the target peers in order, each with the matching
auxiliary allowed-IPs appended. -/
theorem mergeOuter_fst (dPeers : List Peer) (l : List Peer) (acc : MergeAcc) :
    (mergeOuter dPeers l acc).1 =
      l.map (fun tj => { tj with allowedIPs := tj.allowedIPs ++ ipsFor tj.publicKey dPeers }) := by
  induction l generalizing acc with
  | nil => rfl
  | cons tj rest ih => simp [mergeOuter, mergeInner_fst, ih]

/-- Updating allowed-IPs preserves the key list. -/
theorem peerKeys_map_update (f : Peer → List IPNet) (l : List Peer) :
    peerKeys (l.map (fun tj => { tj with allowedIPs := f tj })) = peerKeys l := by
  induction l with
  | nil => rfl
  | cons tj rest ih => simp only [List.map_cons, peerKeys_cons, ih]

/-- Collecting `K`'s allowed-IPs over the updated target peers: the original
entries followed by the auxiliary entries when `K` is a target key. -/
theorem ipsFor_map_update (K : Key) (dPeers : List Peer) (l : List Peer)
    (h : (peerKeys l).Nodup) :
    ipsFor K (l.map (fun tj => { tj with allowedIPs := tj.allowedIPs ++ ipsFor tj.publicKey dPeers })) =
      ipsFor K l ++ (if K ∈ peerKeys l then ipsFor K dPeers else []) := by
  induction l with
  | nil => simp [ipsFor, peerKeys]
  | cons tj rest ih =>
    rw [peerKeys_cons] at h
    obtain ⟨hnin, hrest⟩ := List.nodup_cons.mp h
    by_cases hK : tj.publicKey = K
    · have hKrest : K ∉ peerKeys rest := hK ▸ hnin
      have h1 : ipsFor K rest = [] := ipsFor_eq_nil _ _ hKrest
      have h2 : ipsFor K
          (rest.map (fun tj => { tj with allowedIPs := tj.allowedIPs ++ ipsFor tj.publicKey dPeers })) = [] := by
        refine ipsFor_eq_nil _ _ ?_
        rw [peerKeys_map_update]
        exact hKrest
      simp [List.map_cons, ipsFor, hK, h1, h2, peerKeys_cons]
    · have hKne : ¬ K = tj.publicKey := fun hh => hK hh.symm
      simp [ipsFor, List.map_cons, hK, ih hrest, peerKeys_cons, hKne]

/-- The inner loop preserves the accumulator invariant. -/
theorem mergeInner_accInv (tks : List Key) (tjKey : Key) (l : List Peer) (acc : MergeAcc)
    (h : accInv tks acc) : accInv tks (mergeInner tjKey l acc).2 := by
  induction l generalizing acc with
  | nil => simpa [mergeInner] using h
  | cons dk rest ih =>
    by_cases h1 : dk.publicKey = tjKey
    · simpa [mergeInner, h1] using ih acc h
    · by_cases h2 : dk.publicKey ∈ acc.known
      · simpa [mergeInner, h1, h2] using ih acc h
      · have h' : accInv tks ⟨dk.publicKey :: acc.known, acc.newPeers ++ [dk]⟩ := by
          obtain ⟨hsub, hnd, hdisj, hik⟩ := h
          refine ⟨?_, ?_, ?_, ?_⟩
          · intro k hk
            exact List.mem_cons_of_mem _ (hsub k hk)
          · show (peerKeys (acc.newPeers ++ [dk])).Nodup
            rw [peerKeys_append]
            refine List.Nodup.append hnd (List.nodup_singleton _) ?_
            intro a ha hb
            rw [peerKeys_cons] at hb
            rcases List.mem_cons.mp hb with rfl | hc
            · exact h2 (hik _ ha)
            · simp [peerKeys] at hc
          · intro k hk
            show k ∉ tks
            rw [show (⟨dk.publicKey :: acc.known, acc.newPeers ++ [dk]⟩ : MergeAcc).newPeers
                = acc.newPeers ++ [dk] from rfl, peerKeys_append] at hk
            rcases List.mem_append.mp hk with hk | hk
            · exact hdisj k hk
            · rw [peerKeys_cons] at hk
              rcases List.mem_cons.mp hk with rfl | hc
              · intro ht
                exact h2 (hsub _ ht)
              · simp [peerKeys] at hc
          · intro k hk
            rw [show (⟨dk.publicKey :: acc.known, acc.newPeers ++ [dk]⟩ : MergeAcc).newPeers
                = acc.newPeers ++ [dk] from rfl, peerKeys_append] at hk
            rcases List.mem_append.mp hk with hk | hk
            · exact List.mem_cons_of_mem _ (hik k hk)
            · rw [peerKeys_cons] at hk
              rcases List.mem_cons.mp hk with rfl | hc
              · exact List.mem_cons_self _ _
              · simp [peerKeys] at hc
        simpa [mergeInner, h1, h2] using ih _ h'

/-- The outer loop preserves the accumulator invariant. -/
theorem mergeOuter_accInv (tks : List Key) (dPeers l : List Peer) (acc : MergeAcc)
    (h : accInv tks acc) : accInv tks (mergeOuter dPeers l acc).2 := by
  induction l generalizing acc with
  | nil => simpa [mergeOuter] using h
  | cons tj rest ih =>
    simpa [mergeOuter] using ih _ (mergeInner_accInv tks tj.publicKey dPeers acc h)

/-- The initial accumulator of `mergeDevices` satisfies the invariant. -/
theorem accInv_init (tks : List Key) : accInv tks ⟨tks, []⟩ :=
  ⟨fun _ hk => hk, by simp [peerKeys], by simp [peerKeys], by simp [peerKeys]⟩

/-- `mergeDevices` preserves distinctness of the target's peer keys. -/
theorem mergeDevices_nodup (target d : Device) (h : (peerKeys target.peers).Nodup) :
    (peerKeys (mergeDevices target d).peers).Nodup := by
  have hfin := mergeOuter_accInv (peerKeys target.peers) d.peers target.peers _
    (accInv_init (peerKeys target.peers))
  obtain ⟨-, hnd, hdisj, -⟩ := hfin
  simp only [mergeDevices]
  rw [peerKeys_append, mergeOuter_fst, peerKeys_map_update]
  exact List.Nodup.append h hnd (fun a ha hb => hdisj a hb ha)

/-- How the inner loop extends the collected new peers' allowed-IPs for a key
`K` other than the current target key: nothing if `K` is already known,
otherwise all of `K`'s auxiliary entries. -/
theorem mergeInner_ipsNew (tjKey K : Key) (l : List Peer) (acc : MergeAcc)
    (hnd : (peerKeys l).Nodup) (hne : K ≠ tjKey) :
    ipsFor K (mergeInner tjKey l acc).2.newPeers =
      ipsFor K acc.newPeers ++ (if K ∈ acc.known then [] else ipsFor K l) := by
  induction l generalizing acc with
  | nil => by_cases h : K ∈ acc.known <;> simp [mergeInner, ipsFor, h]
  | cons dk rest ih =>
    rw [peerKeys_cons] at hnd
    obtain ⟨hdk, hrest⟩ := List.nodup_cons.mp hnd
    have htK : ¬ tjKey = K := fun hh => hne hh.symm
    by_cases h1 : dk.publicKey = tjKey
    · have hKdk : ¬ dk.publicKey = K := fun hh => hne (hh.symm.trans h1)
      simpa [mergeInner, h1, ipsFor, hKdk, htK] using ih acc hrest
    · by_cases hKdk : dk.publicKey = K
      · -- the auxiliary peer at hand carries key K itself
        by_cases h2 : dk.publicKey ∈ acc.known
        · have hKin : K ∈ acc.known := hKdk ▸ h2
          simpa [mergeInner, h1, h2, ipsFor, hKdk, hKin, hne, htK] using ih acc hrest
        · have hKnotin : K ∉ acc.known := hKdk ▸ h2
          have hKrest : K ∉ peerKeys rest := hKdk ▸ hdk
          have h0 : ipsFor K rest = [] := ipsFor_eq_nil _ _ hKrest
          have hKin1 : K ∈ dk.publicKey :: acc.known := List.mem_cons.mpr (Or.inl hKdk.symm)
          have hstep : mergeInner tjKey (dk :: rest) acc =
              mergeInner tjKey rest ⟨dk.publicKey :: acc.known, acc.newPeers ++ [dk]⟩ := by
            simp [mergeInner, h1, h2]
          rw [hstep, ih ⟨dk.publicKey :: acc.known, acc.newPeers ++ [dk]⟩ hrest]
          show ipsFor K (acc.newPeers ++ [dk]) ++
              (if K ∈ dk.publicKey :: acc.known then [] else ipsFor K rest) = _
          rw [ipsFor_append]
          simp [ipsFor, hKdk, hKnotin, h0, hKin1]
      · -- the auxiliary peer at hand carries a key other than K
        by_cases h2 : dk.publicKey ∈ acc.known
        · simpa [mergeInner, h1, h2, ipsFor, hKdk,
            (fun hh => hKdk hh.symm : ¬ K = dk.publicKey)] using ih acc hrest
        · have hstep : mergeInner tjKey (dk :: rest) acc =
              mergeInner tjKey rest ⟨dk.publicKey :: acc.known, acc.newPeers ++ [dk]⟩ := by
            simp [mergeInner, h1, h2]
          rw [hstep, ih ⟨dk.publicKey :: acc.known, acc.newPeers ++ [dk]⟩ hrest]
          show ipsFor K (acc.newPeers ++ [dk]) ++
              (if K ∈ dk.publicKey :: acc.known then [] else ipsFor K rest) = _
          rw [ipsFor_append]
          have hKdk' : ¬ K = dk.publicKey := fun hh => hKdk hh.symm
          simp [ipsFor, hKdk, hKdk', List.mem_cons]

/-- How the outer loop extends the collected new peers' allowed-IPs for a key
`K` that matches no target peer. -/
theorem mergeOuter_ipsNew (dPeers : List Peer) (K : Key) (hd : (peerKeys dPeers).Nodup)
    (l : List Peer) (acc : MergeAcc) (hK : ∀ tj ∈ l, K ≠ tj.publicKey) :
    ipsFor K (mergeOuter dPeers l acc).2.newPeers =
      ipsFor K acc.newPeers ++
        (if K ∈ acc.known ∨ l = [] then [] else ipsFor K dPeers) := by
  induction l generalizing acc with
  | nil => simp [mergeOuter]
  | cons tj rest ih =>
    have hKtj : K ≠ tj.publicKey := hK tj (List.mem_cons_self _ _)
    have hinner := mergeInner_ipsNew tj.publicKey K dPeers acc hd hKtj
    have hrec := ih (mergeInner tj.publicKey dPeers acc).2
      (fun x hx => hK x (List.mem_cons_of_mem _ hx))
    by_cases hka : K ∈ acc.known
    · have hka1 : K ∈ (mergeInner tj.publicKey dPeers acc).2.known :=
        mergeInner_known_mono _ _ _ _ hka
      simp only [mergeOuter]
      rw [hrec, hinner]
      simp [hka, hka1]
    · by_cases hmem : K ∈ peerKeys dPeers
      · have hka1 : K ∈ (mergeInner tj.publicKey dPeers acc).2.known :=
          mergeInner_mem_known _ _ _ _ hmem hKtj
        simp only [mergeOuter]
        rw [hrec, hinner]
        simp [hka, hka1]
      · have h0 : ipsFor K dPeers = [] := ipsFor_eq_nil _ _ hmem
        simp only [mergeOuter]
        rw [hrec, hinner]
        simp [hka, h0]

/-- With an empty target peer list `mergeDevices` produces an empty peer list
(auxiliary peers are dropped). -/
theorem mergeDevices_peers_empty (target d : Device) (h : target.peers = []) :
    (mergeDevices target d).peers = [] := by
  simp [mergeDevices, h, mergeOuter]

/-- With a non-empty target peer list the merged peer list is non-empty. -/
theorem mergeDevices_peers_ne_nil (target d : Device) (h : target.peers ≠ []) :
    (mergeDevices target d).peers ≠ [] := by
  obtain ⟨t0, ts, hts⟩ := List.exists_cons_of_ne_nil h
  simp [mergeDevices, hts, mergeOuter]

/-- The allowed-IP postcondition of one merge step: for every key, the merged
device collects the target's entries followed by the auxiliary entries
(requires a non-empty target peer list and per-device key distinctness). -/
theorem mergeDevices_ips (target d : Device) (K : Key)
    (ht : (peerKeys target.peers).Nodup) (hd : (peerKeys d.peers).Nodup)
    (hne : target.peers ≠ []) :
    ipsFor K (mergeDevices target d).peers =
      ipsFor K target.peers ++ ipsFor K d.peers := by
  have hfin := mergeOuter_accInv (peerKeys target.peers) d.peers target.peers _
    (accInv_init (peerKeys target.peers))
  obtain ⟨-, -, hdisj, -⟩ := hfin
  simp only [mergeDevices]
  rw [ipsFor_append, mergeOuter_fst, ipsFor_map_update K d.peers target.peers ht]
  by_cases hmem : K ∈ peerKeys target.peers
  · have h0 : ipsFor K
        (mergeOuter d.peers target.peers ⟨peerKeys target.peers, []⟩).2.newPeers = [] := by
      refine ipsFor_eq_nil _ _ ?_
      intro hk
      exact hdisj K hk hmem
    rw [h0]
    simp [hmem]
  · have h1 : ipsFor K target.peers = [] := ipsFor_eq_nil _ _ hmem
    have hKs : ∀ tj ∈ target.peers, K ≠ tj.publicKey := by
      intro tj htj hKeq
      exact hmem (hKeq ▸ mem_peerKeys_of_mem htj)
    rw [mergeOuter_ipsNew d.peers K hd target.peers ⟨peerKeys target.peers, []⟩ hKs]
    simp [hmem, hne, h1, ipsFor]

/-- Folding `mergeDevices` over continuation devices keeps the key list
distinct, keeps an empty peer list empty, and — when the first device has
peers — accumulates, per key, the concatenation of all devices' entries. -/
theorem foldl_merge_inv (ds : List Device) (first : Device)
    (hfirst : (peerKeys first.peers).Nodup)
    (hds : ∀ d ∈ ds, (peerKeys d.peers).Nodup) :
    (peerKeys (ds.foldl mergeDevices first).peers).Nodup ∧
    (first.peers = [] → (ds.foldl mergeDevices first).peers = []) ∧
    (first.peers ≠ [] → ∀ K, ipsFor K (ds.foldl mergeDevices first).peers =
      ipsFor K first.peers ++ devicesIps K ds) := by
  induction ds generalizing first with
  | nil => exact ⟨hfirst, fun h => h, fun _ K => by simp [devicesIps]⟩
  | cons d ds' ih =>
    have hd : (peerKeys d.peers).Nodup := hds d (List.mem_cons_self _ _)
    have hds' : ∀ x ∈ ds', (peerKeys x.peers).Nodup :=
      fun x hx => hds x (List.mem_cons_of_mem _ hx)
    have hfirst' : (peerKeys (mergeDevices first d).peers).Nodup :=
      mergeDevices_nodup _ _ hfirst
    have IH := ih (mergeDevices first d) hfirst' hds'
    refine ⟨by simpa [List.foldl_cons] using IH.1, ?_, ?_⟩
    · intro h
      have h' : (mergeDevices first d).peers = [] := mergeDevices_peers_empty _ _ h
      simpa [List.foldl_cons] using IH.2.1 h'
    · intro h K
      have h' : (mergeDevices first d).peers ≠ [] := mergeDevices_peers_ne_nil _ _ h
      have hK := IH.2.2 h' K
      rw [List.foldl_cons]
      rw [hK, mergeDevices_ips first d K hfirst hd h]
      simp [devicesIps, List.append_assoc]

/-- `parseDeviceMerge` is the fold of `mergeDevices` over the individually
decoded continuation messages. -/
theorem parseDeviceMerge_decodeAll (ms : List Message) (ds : List Device) (first : Device)
    (h : decodeAll ms = .ok ds) :
    parseDeviceMerge first ms = .ok (ds.foldl mergeDevices first) := by
  induction ms generalizing ds first with
  | nil =>
    simp only [decodeAll] at h
    cases h
    simp [parseDeviceMerge]
  | cons m ms' ih =>
    simp only [decodeAll] at h
    cases hm : parseDeviceLoop m with
    | error e => rw [hm] at h; exact absurd h (by simp)
    | ok d =>
      rw [hm] at h
      cases hms : decodeAll ms' with
      | error e => rw [hms] at h; exact absurd h (by simp)
      | ok ds' =>
        rw [hms] at h
        simp only [Except.ok.injEq] at h
        subst h
        simp only [parseDeviceMerge, hm, List.foldl_cons]
        exact ih ds' (mergeDevices first d) hms

/-- C3 (amended): when every message individually decodes to a peer list with
pairwise-distinct public keys, a successful `parseDevice` returns a device
whose peer list has pairwise-distinct public keys and in which each peer's
allowed-IP list is the concatenation, in message order then within-message
order, of all allowed-IP occurrences for its public key across the messages. -/
theorem claim_C3_parse_invariant (msgs : List Message) (ds : List Device) (dev : Device)
    (hds : decodeAll msgs = .ok ds)
    (huniq : ∀ d ∈ ds, (peerKeys d.peers).Nodup)
    (hok : parseDevice msgs = .ok dev) :
    (peerKeys dev.peers).Nodup ∧
    ∀ p ∈ dev.peers, p.allowedIPs = devicesIps p.publicKey ds := by
  cases msgs with
  | nil =>
    simp only [decodeAll] at hds
    simp only [parseDevice] at hok
    cases hds
    cases hok
    exact ⟨by simp [peerKeys, zeroDevice], by simp [zeroDevice]⟩
  | cons m ms =>
    simp only [decodeAll, parseDevice] at hds hok
    cases hm : parseDeviceLoop m with
    | error e => rw [hm] at hok; exact absurd hok (by simp)
    | ok d0 =>
      rw [hm] at hds
      simp only [hm] at hok
      cases hms : decodeAll ms with
      | error e => rw [hms] at hds; exact absurd hds (by simp)
      | ok ds' =>
        rw [hms] at hds
        simp only [Except.ok.injEq] at hds
        subst hds
        rw [parseDeviceMerge_decodeAll ms ds' d0 hms] at hok
        simp only [Except.ok.injEq] at hok
        subst hok
        have hd0 : (peerKeys d0.peers).Nodup := huniq d0 (List.mem_cons_self _ _)
        have hds'' : ∀ x ∈ ds', (peerKeys x.peers).Nodup :=
          fun x hx => huniq x (List.mem_cons_of_mem _ hx)
        have H := foldl_merge_inv ds' d0 hd0 hds''
        refine ⟨H.1, ?_⟩
        intro p hp
        by_cases hnil : d0.peers = []
        · rw [H.2.1 hnil] at hp
          cases hp
        · have hK := H.2.2 hnil p.publicKey
          have hself : ipsFor p.publicKey ((ds'.foldl mergeDevices d0)).peers = p.allowedIPs :=
            ipsFor_self _ H.1 p hp
          rw [hself] at hK
          rw [hK]
          simp [devicesIps]

/-- Witness for C3 at two concrete wire messages: the first carries peers E and
F, the continuation carries an allowed-IP for E and a new peer G. -/
theorem claim_C3_parse_invariant_witness :
    (peerKeys devC3w.peers).Nodup ∧
    ∀ p ∈ devC3w.peers, p.allowedIPs = devicesIps p.publicKey dsC3w :=
  claim_C3_parse_invariant [msg1C3, msg2C3] dsC3w devC3w (by decide) (by decide) (by decide)

/-- Counterexample to C3 as stated: a single message whose peers attribute
carries two peers with the same public key decodes successfully, and the
returned peer list has a repeated public key. -/
theorem claim_C3_cex :
    parseDevice [msgC3cex] = .ok devC3cex ∧ ¬ (peerKeys devC3cex.peers).Nodup := by
  refine ⟨by decide, by decide⟩

end Wgctrl
